import Mathlib

/-!
Verification of the core data model of scancode-toolkit
(`src/scancode/resource.py` and `src/scancode/plugin_merkle_tree.py`),
shallowly embedded in Lean 4.

The embedding follows the Python source closely:
* the module-level `_CODEBASES` registry is a finite association list from
  integer codebase id to an opaque token standing for the codebase object
  identity (`is` comparison);
* `OrderedDict` payloads are insertion-ordered association lists;
* the `Codebase.resources` node array is a `List (Option Resource)`
  (a `none` slot is a tombstone left by `remove_resource`);
* Python generators are embedded as eagerly computed lists, with a fuel
  parameter where the recursion follows handle indirections through the
  node array.
-/

namespace ScanCode

/-! ## Registry: `add_codebase` / `del_codebase` / `get_codebase` -/

namespace Registry

/-- The module-level `_CODEBASES` mapping, as an insertion-ordered association
list from codebase id (`cid`) to the registered codebase. A codebase object's
identity (Python `is`) is modelled by an opaque `Nat` token. -/
abbrev RegState := List (Nat × Nat)

/-- `max(_CODEBASES.viewkeys())` — the maximum of the registered cids
(meaningful only on a non-empty registry, as in the source). -/
def maxKey (s : RegState) : Nat := (s.map Prod.fst).foldl max 0

/-- `add_codebase(codebase)`: return the existing cid if this codebase object
is already registered, otherwise assign `max(existing) + 1` (`1` when the
registry is empty) and register it. Returns the cid and the new state. -/
def add_codebase (s : RegState) (codebase : Nat) : Nat × RegState :=
  match s.find? (fun p => p.2 = codebase) with
  | some p => (p.1, s)
  | none =>
      let new_cid := if s.isEmpty then 1 else maxKey s + 1
      (new_cid, s ++ [(new_cid, codebase)])

/-- `del_codebase(cid)`: `_CODEBASES.pop(cid, None)`. -/
def del_codebase (s : RegState) (cid : Nat) : Option Nat × RegState :=
  match s.find? (fun p => p.1 = cid) with
  | some p => (some p.2, s.eraseP (fun q => q.1 = cid))
  | none => (none, s)

/-- `get_codebase(cid)`: `_CODEBASES.get(cid)`. -/
def get_codebase (s : RegState) (cid : Nat) : Option Nat :=
  (s.find? (fun p => p.1 = cid)).map Prod.snd

/-- A register/unregister operation on the process-wide registry. -/
inductive RegOp where
  | register (codebase : Nat)
  | unregister (cid : Nat)
deriving DecidableEq, Repr

/-- Interpret a sequence of registry operations starting from the empty
registry. Returns the final state together with the list of cids handed out
by the successive `register` calls. -/
def runOps (ops : List RegOp) : RegState × List Nat :=
  ops.foldl
    (fun acc op =>
      match op with
      | .register cb =>
          let r := add_codebase acc.1 cb
          (r.2, acc.2 ++ [r.1])
      | .unregister cid => ((del_codebase acc.1 cid).2, acc.2))
    ([], [])

theorem init_le_foldl_max (l : List Nat) (init : Nat) : init ≤ l.foldl max init := by
  induction l generalizing init with
  | nil => exact le_refl _
  | cons a l ih => exact le_trans (le_max_left init a) (ih (max init a))

theorem le_foldl_max (l : List Nat) (init : Nat) (x : Nat) (hx : x ∈ l) :
    x ≤ l.foldl max init := by
  induction l generalizing init with
  | nil => cases hx
  | cons a l ih =>
      rcases List.mem_cons.mp hx with rfl | hx'
      · exact le_trans (le_max_right init x) (init_le_foldl_max l (max init x))
      · exact ih _ hx'

theorem mem_le_maxKey (s : RegState) (p : Nat × Nat) (hp : p ∈ s) :
    p.1 ≤ maxKey s := by
  exact le_foldl_max _ _ _ (List.mem_map_of_mem Prod.fst hp)

end Registry

/-! ## Scan payloads: `Resource.get_scans` / `Resource.put_scans` -/

namespace Scans

/-- An `OrderedDict` of scan results: insertion-ordered key/value pairs. -/
abbrev Payload := List (String × String)

/-- Replace the value stored under key `k` by `v`, keeping entry positions. -/
def odReplace : Payload → String → String → Payload
  | [], _, _ => []
  | (k', w) :: d, k, v =>
      if k' = k then (k, v) :: odReplace d k v else (k', w) :: odReplace d k v

/-- One step of `OrderedDict.update`: set key `k` to `v`, replacing the value
in place when the key is present, appending the pair otherwise. -/
def odSet (d : Payload) (k : String) (v : String) : Payload :=
  if d.any (fun p => p.1 = k) then odReplace d k v
  else d ++ [(k, v)]

/-- `d.update(s)` on `OrderedDict`s: fold `odSet` over the entries of `s`. -/
def odUpdate (d s : Payload) : Payload :=
  s.foldl (fun acc p => odSet acc p.1 p.2) d

/-- `put_scans(scans, update)` in the `use_cache=False` branch: the state is
the resource's in-memory `_scans` mapping. Does nothing when `scans` is
empty; otherwise either updates the existing mapping (`update=True`) or
replaces it (`clear()` followed by `update(scans)`). -/
def put_scans_mem (state : Payload) (scans : Payload) (update : Bool) : Payload :=
  if scans.isEmpty then state
  else if update then odUpdate state scans
  else odUpdate [] scans

/-- `get_scans()` in the `use_cache=False` branch: return `self._scans`. -/
def get_scans_mem (state : Payload) : Payload := state

/-- `get_scans()` in the `use_cache=True` branch: the state is the content of
the per-resource cache file (`none` when the file does not exist, which is a
cache miss, not an error). -/
def get_scans_cached (store : Option Payload) : Payload := store.getD []

/-- `put_scans(scans, update)` in the `use_cache=True` branch: no-op when
`scans` is empty; with `update=True` the existing cached mapping is updated
with `scans` and persisted, otherwise `scans` overwrites the file. -/
def put_scans_cached (store : Option Payload) (scans : Payload) (update : Bool) :
    Option Payload :=
  if scans.isEmpty then store
  else if update then some (odUpdate (get_scans_cached store) scans)
  else some scans

/-- The keys of a payload. -/
def keys (d : Payload) : List String := d.map Prod.fst

/-- Key lookup in an insertion-ordered payload (first occurrence wins). -/
def lkp (k : String) : Payload → Option String
  | [] => none
  | (k', v) :: d => if k = k' then some v else lkp k d

theorem lkp_eq_none_of_not_mem (k : String) (d : Payload) (h : k ∉ keys d) :
    lkp k d = none := by
  induction d with
  | nil => rfl
  | cons a d ih =>
      cases a with
      | mk k' v =>
          simp only [keys, List.map_cons, List.mem_cons] at h
          push_neg at h
          simp only [lkp, if_neg h.1]
          exact ih h.2

theorem lkp_replace_ne (d : Payload) (k' v k : String) (h : k ≠ k') :
    lkp k (odReplace d k' v) = lkp k d := by
  induction d with
  | nil => rfl
  | cons a d ih =>
      cases a with
      | mk a1 a2 =>
          by_cases ha : a1 = k'
          · simp only [odReplace, if_pos ha, lkp, if_neg h, ha, if_neg h]
            exact ih
          · simp only [odReplace, if_neg ha, lkp]
            by_cases hk : k = a1
            · simp [hk]
            · simp only [if_neg hk]
              exact ih

theorem lkp_replace_eq (d : Payload) (k' v : String) :
    lkp k' (odReplace d k' v)
      = if d.any (fun p => p.1 = k') then some v else none := by
  induction d with
  | nil => rfl
  | cons a d ih =>
      cases a with
      | mk a1 a2 =>
          by_cases ha : a1 = k'
          · simp [odReplace, if_pos ha, lkp, List.any_cons, ha]
          · have hne2 : k' ≠ a1 := fun hh => ha hh.symm
            simp only [odReplace, if_neg ha, lkp, if_neg hne2, List.any_cons]
            rw [ih]
            have hd : decide (a1 = k') = false := by simp [ha]
            simp only [hd, Bool.false_or]

theorem lkp_append_single (d : Payload) (k' v k : String) :
    lkp k (d ++ [(k', v)])
      = match lkp k d with
        | some w => some w
        | none => if k = k' then some v else none := by
  induction d with
  | nil => simp [lkp]
  | cons a d ih =>
      cases a with
      | mk a1 a2 =>
          by_cases hk : k = a1
          · simp [lkp, hk]
          · simp only [List.cons_append, lkp, if_neg hk]
            exact ih

/-- Characterization of one `odSet` step through `lkp`. -/
theorem lkp_odSet (d : Payload) (k' v k : String) :
    lkp k (odSet d k' v) = if k = k' then some v else lkp k d := by
  unfold odSet
  by_cases hany : d.any (fun p => p.1 = k')
  · rw [if_pos hany]
    by_cases hk : k = k'
    · subst hk
      rw [lkp_replace_eq, if_pos hany, if_pos rfl]
    · rw [lkp_replace_ne d k' v k hk, if_neg hk]
  · rw [if_neg hany, lkp_append_single]
    by_cases hk : k = k'
    · subst hk
      have : lkp k d = none := by
        apply lkp_eq_none_of_not_mem
        intro hmem
        apply hany
        simp only [List.any_eq_true, decide_eq_true_eq]
        rcases List.mem_map.mp hmem with ⟨p, hp, hpk⟩
        exact ⟨p, hp, hpk⟩
      rw [this, if_pos rfl]
    · rw [if_neg hk]
      cases h : lkp k d <;> simp [hk]

/-- `lkp` through `odUpdate`: the updating payload wins on every key it
carries, provided its keys are distinct (it is a mapping). -/
theorem lkp_odUpdate (s : Payload) (d : Payload) (k : String)
    (hs : (keys s).Nodup) :
    lkp k (odUpdate d s)
      = match lkp k s with
        | some w => some w
        | none => lkp k d := by
  induction s generalizing d with
  | nil => rfl
  | cons a s ih =>
      cases a with
      | mk k' v =>
          simp only [keys, List.map_cons, List.nodup_cons] at hs
          have hs2 : (keys s).Nodup := hs.2
          have hk'ns : k' ∉ keys s := hs.1
          show lkp k (odUpdate (odSet d k' v) s) = _
          rw [ih _ hs2]
          by_cases hk : k = k'
          · subst hk
            rw [lkp_eq_none_of_not_mem k s hk'ns]
            simp [lkp, lkp_odSet]
          · simp only [lkp, if_neg hk]
            rw [lkp_odSet, if_neg hk]

/-- `odUpdate` into a payload with disjoint keys appends (in particular,
`odUpdate [] s = s` when `s` is a mapping). -/
theorem odUpdate_disjoint (s : Payload) (d : Payload)
    (hdisj : ∀ p ∈ s, ¬ (d.any (fun q => q.1 = p.1)))
    (hs : (keys s).Nodup) :
    odUpdate d s = d ++ s := by
  induction s generalizing d with
  | nil => simp [odUpdate]
  | cons a s ih =>
      cases a with
      | mk k' v =>
          show odUpdate (odSet d k' v) s = _
          have hset : odSet d k' v = d ++ [(k', v)] := by
            unfold odSet
            rw [if_neg (hdisj (k', v) (List.mem_cons_self _ _))]
          rw [hset, ih (d ++ [(k', v)])]
          · simp
          · intro p hp
            simp only [List.any_append, Bool.or_eq_true, List.any_cons,
              List.any_nil, Bool.or_false]
            intro hor
            rcases hor with hd | hk
            · exact hdisj p (List.mem_cons_of_mem _ hp) hd
            · simp only [keys, List.map_cons, List.nodup_cons] at hs
              simp only [decide_eq_true_eq] at hk
              exact hs.1 (by rw [show k' = p.1 from hk]
                             exact List.mem_map_of_mem Prod.fst hp)
          · simp only [keys, List.map_cons, List.nodup_cons] at hs
            exact hs.2

theorem odUpdate_nil (s : Payload) (hs : (keys s).Nodup) :
    odUpdate [] s = s := by
  rw [odUpdate_disjoint s [] (by intro p _; simp) hs]
  rfl

end Scans

/-! ## Codebase and Resource: the handle-indexed node array -/

/-- A tree node (`Resource` in `resource.py`), keeping only the attributes
that participate in the claims: identity and tree structure (`rid`, `pid`,
`children_rids`), the file/directory flag and name (used by `walk`'s sort
key), and the derived aggregates (`size`, `files_count`, `dirs_count`). -/
structure Resource where
  name : String
  rid : Nat
  pid : Option Nat
  is_file : Bool
  children_rids : List Nat
  size : Nat
  files_count : Nat
  dirs_count : Nat
deriving DecidableEq, Repr

/-- A `Codebase`: the node array (`self.resources`, index = handle, a freed
slot is `none`) and the `is_file` flag of the root location. -/
structure Codebase where
  resources : List (Option Resource)
  is_file : Bool
deriving DecidableEq, Repr

/-- The live node stored at slot `i` of the node array, if any. -/
def liveAt (cb : Codebase) (i : Nat) : Option Resource :=
  (cb.resources[i]?).join

/-- `populate` stores the root at index 0 (`rid = 0`); `self.root` is the
same object as `self.resources[0]`. -/
def Codebase.root? (cb : Codebase) : Option Resource := liveAt cb 0

/-- The sort key used by `Resource._walk` when `sort=True`:
`lambda r: (r.is_file, r.name)`, compared as a Python tuple
(directories first, then by name). -/
def walkKey (a b : Resource) : Prop :=
  a.is_file < b.is_file ∨ (a.is_file = b.is_file ∧ a.name ≤ b.name)

instance : DecidableRel walkKey := fun a b => by
  unfold walkKey
  infer_instance

namespace Resource

/-- `Resource._walk(topdown, sort)`: yield `self` (pre-order when `topdown`),
then recursively each child, then `self` (post-order otherwise). Children are
resolved through the node array; the `fuel` parameter bounds the recursion
depth through handle indirections (any fuel at least `resources.length`
is enough on a well-formed codebase, because child handles strictly
increase). -/
def _walk (cb : Codebase) : Nat → Resource → Bool → Bool → List Resource
  | 0, _, _, _ => []
  | fuel+1, r, topdown, sort =>
      let children := r.children_rids.filterMap (liveAt cb)
      let children := if sort then children.insertionSort walkKey else children
      let rest := children.flatMap (fun c => _walk cb fuel c topdown sort)
      (if topdown then [r] else []) ++ rest ++ (if topdown then [] else [r])

/-- `Resource.walk(topdown, sort, skip_root)`: a single root resource without
children short-circuits to `[self]`; otherwise `_walk`, with the first
element dropped (`topdown`) or the last element dropped (bottom-up) when
`skip_root` is requested (`iter_skip`). -/
def walk (cb : Codebase) (fuel : Nat) (r : Resource)
    (topdown sort skip_root : Bool) : List Resource :=
  if r.pid = none ∧ r.children_rids = [] then [r]
  else
    let walked := _walk cb fuel r topdown sort
    if skip_root then
      if topdown then walked.drop 1 else walked.dropLast
    else walked

/-- `Resource._children_counts`: the `(files_count, dirs_count, size)`
aggregate over the direct children of `r`. -/
def _children_counts (cb : Codebase) (r : Resource) : Nat × Nat × Nat :=
  if r.children_rids = [] then (0, 0, 0)
  else
    (r.children_rids.filterMap (liveAt cb)).foldl
      (fun acc res =>
        (acc.1 + res.files_count + (if res.is_file then 1 else 0),
         acc.2.1 + res.dirs_count + (if res.is_file then 0 else 1),
         acc.2.2 + res.size))
      (0, 0, 0)

/-- `Resource._update_children_counts`: store the aggregates computed from
the direct children on `r` (the size is only overwritten for directories). -/
def _update_children_counts (cb : Codebase) (r : Resource) : Resource :=
  let c := _children_counts cb r
  { r with
    size := if r.is_file then r.size else c.2.2
    files_count := c.1
    dirs_count := c.2.1 }

end Resource

namespace Codebase

/-- `Codebase.walk(topdown, sort, skip_root)`: a root without children
short-circuits to `[self.root]`; otherwise delegate to `Resource.walk` on
the root. -/
def walk (cb : Codebase) (topdown sort skip_root : Bool) : List Resource :=
  match liveAt cb 0 with
  | none => []
  | some root =>
      if root.children_rids = [] then [root]
      else Resource.walk cb cb.resources.length root topdown sort skip_root

/-- Python list indexing: negative indices count from the end, out-of-range
indices raise `IndexError` (modelled as `none`). -/
def pyGet {α : Type} (l : List α) (i : Int) : Option α :=
  let j : Int := if i < 0 then (l.length : Int) + i else i
  if 0 ≤ j ∧ j < (l.length : Int) then l[j.toNat]? else none

/-- `Codebase.get_resource(rid)`: `self.resources[rid]`, with `IndexError`
swallowed and turned into `None`. -/
def get_resource (cb : Codebase) (rid : Int) : Option Resource :=
  (pyGet cb.resources rid).join

/-- `rids = [res.rid for res in resource.walk(topdown=True)]` in
`Codebase.remove_resource`. -/
def removedRids (cb : Codebase) (resource : Resource) : List Nat :=
  (Resource.walk cb cb.resources.length resource true false false).map
    (fun res => res.rid)

/-- `Codebase.remove_resource(resource)`: fatal on the root; otherwise
collect the rids of the resource and all its descendants by a pre-order
walk, tombstone the corresponding array slots, unlink the rid from the
parent's `children_rids` (`list.remove`, with `ValueError` swallowed), and
return the removed rids. -/
def remove_resource (cb : Codebase) (resource : Resource) :
    Except String (Codebase × List Nat) :=
  if resource.pid = none then
    .error "Cannot remove the root resource from codebase"
  else
    let rids := removedRids cb resource
    let resources := rids.foldl (fun acc rid => acc.set rid none) cb.resources
    match resource.pid with
    | none => .ok ({ cb with resources := resources }, rids)
    | some p =>
        match (resources[p]?).join with
        | some parent =>
            let parent' :=
              { parent with children_rids := parent.children_rids.erase resource.rid }
            .ok ({ cb with resources := resources.set p (some parent') }, rids)
        | none => .ok ({ cb with resources := resources }, rids)

/-- One iteration of the `update_counts` loop:
`resource._update_children_counts()` mutates the node stored at the
resource's slot, recomputing its aggregates from the current state. -/
def updateStep (acc : Codebase) (res : Resource) : Codebase :=
  match (acc.resources[res.rid]?).join with
  | some cur =>
      { acc with
        resources :=
          acc.resources.set res.rid
            (some (Resource._update_children_counts acc cur)) }
  | none => acc

/-- `Codebase.update_counts()`: one bottom-up pass recomputing the
aggregates of every resource from its direct children, in place. -/
def update_counts (cb : Codebase) : Codebase :=
  (walk cb false false false).foldl updateStep cb

/-- `Codebase.counts(update, skip_root)`: optionally refresh the aggregates,
then return the root's `(files_count, dirs_count, size)` with the root
itself added to the relevant counter — or, when `skip_root` is set on a
directory-rooted codebase, the component-wise sum over the root's direct
children (which raises `ValueError` when the root has no children, from
unpacking `zip(*[])`). -/
def counts (cb : Codebase) (update skip_root : Bool) :
    Except String (Nat × Nat × Nat) :=
  let cb := if update then cb.update_counts else cb
  match liveAt cb 0 with
  | none => .error "no root resource"
  | some root =>
      if skip_root ∧ cb.is_file = false then
        let cs := root.children_rids.filterMap (liveAt cb)
        if cs.isEmpty then .error "ValueError: not enough values to unpack"
        else
          .ok (cs.foldl
            (fun acc c =>
              (acc.1 + c.files_count, acc.2.1 + c.dirs_count, acc.2.2 + c.size))
            (0, 0, 0))
      else
        if cb.is_file then .ok (root.files_count + 1, root.dirs_count, root.size)
        else .ok (root.files_count, root.dirs_count + 1, root.size)

end Codebase

/-! ### Well-formedness of a populated codebase -/

/-- Structural invariants of one live node, as produced by `populate` and
preserved by the mutation operations: the node's `rid` is its slot index,
its child list has no duplicates, each child handle is strictly larger,
live, and points back via `pid`, and a node's `pid` is live and lists the
node among its children (`pid = None` exactly for the root at slot 0). -/
def nodeOK (cb : Codebase) (i : Nat) (r : Resource) : Prop :=
  r.rid = i ∧
  r.children_rids.Nodup ∧
  (∀ c ∈ r.children_rids,
      i < c ∧ liveAt cb c ≠ none ∧ ∀ s ∈ liveAt cb c, s.pid = some i) ∧
  (∀ p ∈ r.pid, liveAt cb p ≠ none ∧ ∀ q ∈ liveAt cb p, i ∈ q.children_rids) ∧
  (r.pid = none → i = 0)

/-- Well-formedness of the node array. -/
def WF (cb : Codebase) : Prop :=
  ∀ i < cb.resources.length, ∀ r ∈ liveAt cb i, nodeOK cb i r

instance (cb : Codebase) (i : Nat) (r : Resource) : Decidable (nodeOK cb i r) := by
  unfold nodeOK
  infer_instance

instance (cb : Codebase) : Decidable (WF cb) := by
  unfold WF
  infer_instance

/-- All aggregates are current: recomputing any live node's counts from its
children leaves it unchanged. -/
def upToDate (cb : Codebase) : Prop :=
  ∀ i < cb.resources.length, ∀ r ∈ liveAt cb i,
    Resource._update_children_counts cb r = r

instance (cb : Codebase) : Decidable (upToDate cb) := by
  unfold upToDate
  infer_instance

instance {ε α : Type} [DecidableEq ε] [DecidableEq α] : DecidableEq (Except ε α) :=
  fun a b =>
    match a, b with
    | .error e1, .error e2 =>
        if h : e1 = e2 then isTrue (by rw [h])
        else isFalse (by intro hc; cases hc; exact h rfl)
    | .error _, .ok _ => isFalse (by intro hc; cases hc)
    | .ok _, .error _ => isFalse (by intro hc; cases hc)
    | .ok v1, .ok v2 =>
        if h : v1 = v2 then isTrue (by rw [h])
        else isFalse (by intro hc; cases hc; exact h rfl)

/-- `x` is a strict descendant of `i` through `children_rids` links. -/
inductive Desc (cb : Codebase) : Nat → Nat → Prop where
  | child : ∀ {i c} (r : Resource),
      liveAt cb i = some r → c ∈ r.children_rids → Desc cb i c
  | tail : ∀ {i c x} (r : Resource),
      liveAt cb i = some r → c ∈ r.children_rids → Desc cb c x → Desc cb i x

theorem liveAt_lt (cb : Codebase) (i : Nat) (r : Resource)
    (h : liveAt cb i = some r) : i < cb.resources.length := by
  by_contra hge
  push_neg at hge
  unfold liveAt at h
  rw [List.getElem?_eq_none hge] at h
  simp [Option.join] at h

theorem wf_nodeOK {cb : Codebase} (hwf : WF cb) {i : Nat} {r : Resource}
    (h : liveAt cb i = some r) : nodeOK cb i r :=
  hwf i (liveAt_lt cb i r h) r (by rw [h]; rfl)

theorem wf_child_live {cb : Codebase} (hwf : WF cb) {i : Nat} {r : Resource}
    (h : liveAt cb i = some r) {c : Nat} (hc : c ∈ r.children_rids) :
    ∃ s : Resource, liveAt cb c = some s ∧ s.pid = some i ∧ s.rid = c := by
  obtain ⟨-, -, hch, -, -⟩ := wf_nodeOK hwf h
  obtain ⟨-, hne, hpid⟩ := hch c hc
  cases hs : liveAt cb c with
  | none => exact absurd hs hne
  | some s =>
      refine ⟨s, rfl, hpid s (by rw [hs]; rfl), ?_⟩
      obtain ⟨hrid, -⟩ := wf_nodeOK hwf hs
      exact hrid

theorem wf_child_lt {cb : Codebase} (hwf : WF cb) {i : Nat} {r : Resource}
    (h : liveAt cb i = some r) {c : Nat} (hc : c ∈ r.children_rids) : i < c := by
  obtain ⟨-, -, hch, -, -⟩ := wf_nodeOK hwf h
  exact (hch c hc).1

theorem Desc.lt {cb : Codebase} (hwf : WF cb) {i x : Nat} (h : Desc cb i x) :
    i < x := by
  induction h with
  | child r hr hc => exact wf_child_lt hwf hr hc
  | tail r hr hc _ ih => exact lt_trans (wf_child_lt hwf hr hc) ih

/-- Membership in the pre-order walk of a well-formed subtree: exactly the
node itself and its descendants. -/
theorem mem_walk_iff {cb : Codebase} (hwf : WF cb) :
    ∀ (fuel i : Nat) (r : Resource), liveAt cb i = some r →
      cb.resources.length - i ≤ fuel → ∀ x : Nat,
        ((∃ res ∈ Resource._walk cb fuel r true false, res.rid = x) ↔
          (x = i ∨ Desc cb i x)) := by
  intro fuel
  induction fuel with
  | zero =>
      intro i r hlive hfuel x
      have hi := liveAt_lt cb i r hlive
      omega
  | succ fuel ih =>
      intro i r hlive hfuel x
      have hrid : r.rid = i := (wf_nodeOK hwf hlive).1
      constructor
      · rintro ⟨res, hres, hresx⟩
        simp only [Resource._walk, if_true, if_pos, List.mem_append,
          List.mem_singleton, List.mem_flatMap, ite_true] at hres
        rcases hres with (hres | ⟨s, hs, hress⟩) | hres
        · rcases hres with rfl
          exact Or.inl (hresx ▸ hrid)
        · rcases List.mem_filterMap.mp hs with ⟨c, hc, hsc⟩
          have hic : i < c := wf_child_lt hwf hlive hc
          have hclt : c < cb.resources.length := liveAt_lt cb c s hsc
          have hfc : cb.resources.length - c ≤ fuel := by omega
          have := (ih c s hsc hfc x).mp ⟨res, hress, hresx⟩
          rcases this with rfl | hdesc
          · exact Or.inr (Desc.child r hlive hc)
          · exact Or.inr (Desc.tail r hlive hc hdesc)
        · simp at hres
      · intro hx
        rcases hx with rfl | hdesc
        · refine ⟨r, ?_, hrid⟩
          simp [Resource._walk]
        · -- descend along the first child step of the derivation
          cases hdesc with
          | child r' hr' hc =>
              have hr'r : r' = r := by
                rw [hlive] at hr'
                exact (Option.some.injEq _ _ ▸ hr').symm ▸ rfl
              subst hr'r
              obtain ⟨s, hs, -, hsrid⟩ := wf_child_live hwf hlive hc
              have hic : i < x := wf_child_lt hwf hlive hc
              have hclt : x < cb.resources.length := liveAt_lt cb x s hs
              have hfc : cb.resources.length - x ≤ fuel := by omega
              obtain ⟨res, hress, hresx⟩ := ((ih x s hs hfc x).mpr (Or.inl rfl))
              refine ⟨res, ?_, hresx⟩
              simp only [Resource._walk, List.mem_append, List.mem_flatMap,
                ite_true]
              refine Or.inl (Or.inr ⟨s, ?_, hress⟩)
              exact List.mem_filterMap.mpr ⟨x, hc, hs⟩
          | tail r' hr' hc hdesc' =>
              rename_i c'
              have hr'r : r' = r := by
                rw [hlive] at hr'
                exact (Option.some.injEq _ _ ▸ hr').symm ▸ rfl
              subst hr'r
              obtain ⟨s, hs, -, hsrid⟩ := wf_child_live hwf hlive hc
              have hic : i < c' := wf_child_lt hwf hlive hc
              have hclt : c' < cb.resources.length := liveAt_lt cb c' s hs
              have hfc : cb.resources.length - c' ≤ fuel := by omega
              obtain ⟨res, hress, hresx⟩ :=
                ((ih c' s hs hfc x).mpr (Or.inr hdesc'))
              refine ⟨res, ?_, hresx⟩
              simp only [Resource._walk, List.mem_append, List.mem_flatMap,
                ite_true]
              refine Or.inl (Or.inr ⟨s, ?_, hress⟩)
              exact List.mem_filterMap.mpr ⟨c', hc, hs⟩

theorem Desc.live {cb : Codebase} (hwf : WF cb) {i x : Nat} (h : Desc cb i x) :
    ∃ s : Resource, liveAt cb x = some s := by
  induction h with
  | child r hr hc =>
      obtain ⟨s, hs, -, -⟩ := wf_child_live hwf hr hc
      exact ⟨s, hs⟩
  | tail r hr hc _ ih => exact ih

theorem foldl_set_none_getElem? (rids : List Nat) (l : List (Option Resource))
    (i : Nat) :
    (rids.foldl (fun acc rid => acc.set rid none) l)[i]? =
      if i ∈ rids ∧ i < l.length then some none else l[i]? := by
  induction rids generalizing l with
  | nil => simp
  | cons a rids ih =>
      simp only [List.foldl_cons]
      rw [ih (l.set a none)]
      by_cases hia : i ∈ rids
      · by_cases hil : i < l.length
        · simp [hia, hil, List.length_set]
        · simp only [List.length_set, hia, hil, and_false, and_true, if_false,
            List.mem_cons]
          by_cases hiea : i = a
          · subst hiea
            rw [List.getElem?_set_self']
            rw [List.getElem?_eq_none (by omega)]
            rfl
          · exact List.getElem?_set_ne (Ne.symm hiea)
      · by_cases hiea : i = a
        · subst hiea
          simp only [List.length_set, hia, false_and, if_false]
          by_cases hil : i < l.length
          · rw [List.getElem?_set_eq_of_lt _ hil,
              if_pos ⟨List.mem_cons_self _ _, hil⟩]
          · rw [if_neg (fun hcon => hil hcon.2)]
            rw [List.getElem?_set_self']
            rw [List.getElem?_eq_none (by omega)]
            rfl
        · simp only [List.length_set, hia, false_and, if_false]
          rw [if_neg (by
            intro hcon
            rcases List.mem_cons.mp hcon.1 with h | h
            · exact hiea h
            · exact hia h)]
          exact List.getElem?_set_ne (Ne.symm hiea)

theorem length_foldl_set_none (rids : List Nat) (l : List (Option Resource)) :
    (rids.foldl (fun acc rid => acc.set rid none) l).length = l.length := by
  induction rids generalizing l with
  | nil => rfl
  | cons a rids ih => simp [List.foldl_cons, ih, List.length_set]

theorem set_same {α : Type} (l : List α) (n : Nat) (a : α)
    (h : l[n]? = some a) : l.set n a = l := by
  induction l generalizing n with
  | nil => simp at h
  | cons b l ih =>
      cases n with
      | zero =>
          simp only [List.getElem?_cons_zero, Option.some.injEq] at h
          rw [h]
          rfl
      | succ n =>
          simp only [List.getElem?_cons_succ] at h
          simp [List.set, ih n h]

/-- **C6**: `remove_resource` on the root raises a fatal error; on any other
live resource it returns exactly the handles of the resource and all of its
descendants, tombstones exactly those array slots, removes the handle from
its parent's `children_rids`, and leaves every other slot (hence every
other node's child list) unchanged. -/
theorem remove_resource_spec (cb : Codebase) (r : Resource)
    (hwf : WF cb) (hlive : liveAt cb r.rid = some r) :
    (r.pid = none → ∃ e, cb.remove_resource r = .error e) ∧
    (∀ p, r.pid = some p →
      ∃ (cb' : Codebase) (q : Resource),
        cb.remove_resource r = .ok (cb', Codebase.removedRids cb r) ∧
        (∀ x, x ∈ Codebase.removedRids cb r ↔ (x = r.rid ∨ Desc cb r.rid x)) ∧
        (∀ i, i ≠ p →
          liveAt cb' i = if i ∈ Codebase.removedRids cb r then none else liveAt cb i) ∧
        liveAt cb p = some q ∧
        liveAt cb' p =
          some { q with children_rids := q.children_rids.erase r.rid } ∧
        r.rid ∉ q.children_rids.erase r.rid) := by
  constructor
  · intro hpid
    refine ⟨"Cannot remove the root resource from codebase", ?_⟩
    unfold Codebase.remove_resource
    rw [if_pos hpid]
  · intro p hpid
    have hpidne : ¬ (r.pid = none) := by rw [hpid]; simp
    obtain ⟨hrid, -, -, hpar, -⟩ := wf_nodeOK hwf hlive
    obtain ⟨hqne, hqmem⟩ := hpar p (by rw [hpid]; rfl)
    cases hq : liveAt cb p with
    | none => exact absurd hq hqne
    | some q =>
    have hqmem' : r.rid ∈ q.children_rids := hqmem q (by rw [hq]; rfl)
    have hplt : p < r.rid := wf_child_lt hwf hq hqmem'
    have hrlt : r.rid < cb.resources.length := liveAt_lt cb r.rid r hlive
    have hwalkeq : Resource.walk cb cb.resources.length r true false false
        = Resource._walk cb cb.resources.length r true false := by
      unfold Resource.walk
      rw [if_neg (fun hcon => hpidne hcon.1)]
      rfl
    have hmem : ∀ x, x ∈ Codebase.removedRids cb r ↔ (x = r.rid ∨ Desc cb r.rid x) := by
      intro x
      unfold Codebase.removedRids
      rw [hwalkeq, List.mem_map]
      exact mem_walk_iff hwf cb.resources.length r.rid r hlive (Nat.sub_le _ _) x
    have hridslt : ∀ x ∈ Codebase.removedRids cb r, x < cb.resources.length := by
      intro x hx
      rcases (hmem x).mp hx with rfl | hdesc
      · exact hrlt
      · obtain ⟨s, hs⟩ := Desc.live hwf hdesc
        exact liveAt_lt cb x s hs
    have hpnotin : p ∉ Codebase.removedRids cb r := by
      intro hpin
      rcases (hmem p).mp hpin with heq | hdesc
      · omega
      · have := Desc.lt hwf hdesc
        omega
    have hres_p :
        (((Codebase.removedRids cb r).foldl (fun acc rid => acc.set rid none)
            cb.resources)[p]?).join = some q := by
      rw [foldl_set_none_getElem?]
      rw [if_neg (fun hcon => hpnotin hcon.1)]
      exact hq
    have hqnodup : q.children_rids.Nodup := (wf_nodeOK hwf hq).2.1
    have hplen : p < ((Codebase.removedRids cb r).foldl
        (fun acc rid => acc.set rid none) cb.resources).length := by
      rw [length_foldl_set_none]
      omega
    refine ⟨Codebase.mk
      (((Codebase.removedRids cb r).foldl (fun acc rid => acc.set rid none)
          cb.resources).set p
          (some { q with children_rids := q.children_rids.erase r.rid }))
      cb.is_file,
      q, ?_, hmem, ?_, rfl, ?_, ?_⟩
    · unfold Codebase.remove_resource
      rw [if_neg hpidne]
      simp only [hpid, hres_p]
    · intro i hip
      unfold liveAt
      show ((((Codebase.removedRids cb r).foldl (fun acc rid => acc.set rid none)
          cb.resources).set p _)[i]?).join = _
      rw [List.getElem?_set_ne (Ne.symm hip)]
      rw [foldl_set_none_getElem?]
      by_cases hin : i ∈ Codebase.removedRids cb r
      · rw [if_pos ⟨hin, hridslt i hin⟩, if_pos hin]
        rfl
      · rw [if_neg (fun hcon => hin hcon.1), if_neg hin]
    · unfold liveAt
      show ((((Codebase.removedRids cb r).foldl (fun acc rid => acc.set rid none)
          cb.resources).set p _)[p]?).join = _
      rw [List.getElem?_set_eq_of_lt _ hplen]
      rfl
    · intro hcon
      exact ((hqnodup.mem_erase_iff).mp hcon).1 rfl

/-- A small populated codebase: `root/` containing directory `a/` which
contains file `b`. -/
def exR0 : Resource := ⟨"root", 0, none, false, [1], 0, 0, 0⟩

def exR1 : Resource := ⟨"a", 1, some 0, false, [2], 0, 0, 0⟩

def exR2 : Resource := ⟨"b", 2, some 1, true, [], 0, 0, 0⟩

def exCb : Codebase := ⟨[some exR0, some exR1, some exR2], false⟩

theorem remove_resource_spec_witness :
    WF exCb ∧ liveAt exCb exR1.rid = some exR1 ∧ exR1.pid = some 0 ∧
    (∃ (cb' : Codebase) (q : Resource),
      exCb.remove_resource exR1 = .ok (cb', Codebase.removedRids exCb exR1) ∧
      (∀ x, x ∈ Codebase.removedRids exCb exR1 ↔
        (x = exR1.rid ∨ Desc exCb exR1.rid x)) ∧
      (∀ i, i ≠ 0 →
        liveAt cb' i =
          if i ∈ Codebase.removedRids exCb exR1 then none else liveAt exCb i) ∧
      liveAt exCb 0 = some q ∧
      liveAt cb' 0 =
        some { q with children_rids := q.children_rids.erase exR1.rid } ∧
      exR1.rid ∉ q.children_rids.erase exR1.rid) :=
  ⟨by decide, by decide, by decide,
    (remove_resource_spec exCb exR1 (by decide) (by decide)).2 0 (by decide)⟩

/-- **C4**: on a tree whose root has no children, `Codebase.walk` returns
the single-element sequence containing exactly the root, for every
combination of the `topdown`, `sort` and `skip_root` parameters (including
`skip_root = true`). -/
theorem walk_childless_root (cb : Codebase) (root : Resource)
    (topdown sort skip_root : Bool)
    (h0 : liveAt cb 0 = some root) (hch : root.children_rids = []) :
    cb.walk topdown sort skip_root = [root] := by
  unfold Codebase.walk
  rw [h0]
  exact if_pos hch

/-- A codebase whose root has no children. -/
def exCb1 : Codebase := ⟨[some ⟨"r", 0, none, false, [], 0, 0, 0⟩], false⟩

theorem walk_childless_root_witness :
    (liveAt exCb1 0 = some ⟨"r", 0, none, false, [], 0, 0, 0⟩ ∧
      Resource.children_rids ⟨"r", 0, none, false, [], 0, 0, 0⟩ = []) ∧
    exCb1.walk true true true = [⟨"r", 0, none, false, [], 0, 0, 0⟩] ∧
    exCb1.walk false false true = [⟨"r", 0, none, false, [], 0, 0, 0⟩] :=
  ⟨⟨by decide, by decide⟩,
    walk_childless_root exCb1 _ true true true (by decide) (by decide),
    walk_childless_root exCb1 _ false false true (by decide) (by decide)⟩

/-- **C10**: `get_resource` returns `None` for any handle not below the node
array length, but a negative handle whose absolute value is at most the
length silently indexes from the end of the array: it returns the slot at
position `length + handle` instead of `None`. -/
theorem get_resource_indexing (cb : Codebase) (rid : Int) :
    ((cb.resources.length : Int) ≤ rid → cb.get_resource rid = none) ∧
    (rid < 0 → rid.natAbs ≤ cb.resources.length →
      cb.get_resource rid =
        (cb.resources[((cb.resources.length : Int) + rid).toNat]?).join) := by
  constructor
  · intro h
    have hneg : ¬ rid < 0 := by omega
    show (Codebase.pyGet cb.resources rid).join = none
    simp only [Codebase.pyGet]
    rw [if_neg hneg]
    rw [if_neg (by omega : ¬ ((0 : Int) ≤ rid ∧ rid < (cb.resources.length : Int)))]
    rfl
  · intro hneg habs
    show (Codebase.pyGet cb.resources rid).join = _
    simp only [Codebase.pyGet]
    rw [if_pos hneg]
    rw [if_pos (by omega : (0 : Int) ≤ (cb.resources.length : Int) + rid ∧
      (cb.resources.length : Int) + rid < (cb.resources.length : Int))]

theorem mem_walk_live {cb : Codebase} (hwf : WF cb) :
    ∀ (fuel i : Nat) (r : Resource) (td : Bool), liveAt cb i = some r →
      ∀ res ∈ Resource._walk cb fuel r td false, liveAt cb res.rid = some res := by
  intro fuel
  induction fuel with
  | zero =>
      intro i r td hlive res hres
      simp [Resource._walk] at hres
  | succ fuel ih =>
      intro i r td hlive res hres
      have hself : liveAt cb r.rid = some r := by
        rw [(wf_nodeOK hwf hlive).1]
        exact hlive
      simp only [Resource._walk, if_neg, List.mem_append] at hres
      rcases hres with (h1 | h2) | h3
      · rcases (by
            cases td with
            | true => simpa using h1
            | false => simp at h1 : res = r) with rfl
        exact hself
      · rcases List.mem_flatMap.mp h2 with ⟨s, hs, hress⟩
        rcases List.mem_filterMap.mp hs with ⟨c, -, hsc⟩
        exact ih c s td hsc res hress
      · rcases (by
            cases td with
            | true => simp at h3
            | false => simpa using h3 : res = r) with rfl
        exact hself

theorem mem_cwalk_live {cb : Codebase} (hwf : WF cb) (td : Bool) :
    ∀ res ∈ cb.walk td false false, liveAt cb res.rid = some res := by
  intro res hres
  unfold Codebase.walk at hres
  cases h0 : liveAt cb 0 with
  | none =>
      rw [h0] at hres
      simp at hres
  | some root =>
      rw [h0] at hres
      dsimp only at hres
      have hroot : liveAt cb root.rid = some root := by
        rw [(wf_nodeOK hwf h0).1]
        exact h0
      by_cases hch : root.children_rids = []
      · rw [if_pos hch] at hres
        rcases List.mem_singleton.mp hres with rfl
        exact hroot
      · rw [if_neg hch] at hres
        unfold Resource.walk at hres
        rw [if_neg (fun hcon => hch hcon.2)] at hres
        exact mem_walk_live hwf cb.resources.length 0 root td h0 res hres

theorem updateStep_id (acc : Codebase) (res : Resource)
    (hlive : liveAt acc res.rid = some res)
    (hid : Resource._update_children_counts acc res = res) :
    Codebase.updateStep acc res = acc := by
  unfold Codebase.updateStep
  rw [show (acc.resources[res.rid]?).join = some res from hlive]
  dsimp only
  rw [hid]
  have hslot : acc.resources[res.rid]? = some (some res) :=
    Option.join_eq_some.mp hlive
  rw [set_same _ _ _ hslot]

/-- On a codebase whose aggregates are already current, `update_counts` is
the identity (in particular it is idempotent). -/
theorem update_counts_id (cb : Codebase) (hwf : WF cb) (hupd : upToDate cb) :
    cb.update_counts = cb := by
  unfold Codebase.update_counts
  have hgen : ∀ L : List Resource,
      (∀ res ∈ L, liveAt cb res.rid = some res) →
      L.foldl Codebase.updateStep cb = cb := by
    intro L
    induction L with
    | nil => intro _; rfl
    | cons res L ihL =>
        intro hliveL
        have h1 : liveAt cb res.rid = some res := hliveL res (List.mem_cons_self _ _)
        have hid : Resource._update_children_counts cb res = res :=
          hupd res.rid (liveAt_lt cb res.rid res h1) res (by rw [h1]; rfl)
        rw [List.foldl_cons, updateStep_id cb res h1 hid]
        exact ihL (fun r hr => hliveL r (List.mem_cons_of_mem _ hr))
  exact hgen _ (mem_cwalk_live hwf false)

theorem foldl_triple_sum (cs : List Resource) (init : Nat × Nat × Nat) :
    cs.foldl
        (fun acc c =>
          (acc.1 + c.files_count, acc.2.1 + c.dirs_count, acc.2.2 + c.size))
        init
      = (init.1 + (cs.map (fun c => c.files_count)).sum,
         init.2.1 + (cs.map (fun c => c.dirs_count)).sum,
         init.2.2 + (cs.map (fun c => c.size)).sum) := by
  induction cs generalizing init with
  | nil => simp
  | cons c cs ih =>
      rw [List.foldl_cons, ih]
      simp [Nat.add_assoc]

/-- **C3** (amended): on a well-formed, directory-rooted codebase with
current aggregates, `counts(skip_root=False)` returns the root's aggregate
triple with `dirs_count` incremented by one (the root itself is counted),
and `counts(skip_root=True)` returns the component-wise sum of the
aggregate triples of the root's direct children. -/
theorem counts_spec (cb : Codebase) (root : Resource) (update : Bool)
    (hwf : WF cb) (hupd : upToDate cb) (h0 : liveAt cb 0 = some root)
    (hdir : cb.is_file = false) :
    cb.counts update false
      = .ok (root.files_count, root.dirs_count + 1, root.size) ∧
    (root.children_rids ≠ [] →
      cb.counts update true
        = .ok
          (((root.children_rids.filterMap (liveAt cb)).map
              (fun c => c.files_count)).sum,
           ((root.children_rids.filterMap (liveAt cb)).map
              (fun c => c.dirs_count)).sum,
           ((root.children_rids.filterMap (liveAt cb)).map
              (fun c => c.size)).sum)) := by
  have hif : (if update then cb.update_counts else cb) = cb := by
    cases update
    · rfl
    · exact update_counts_id cb hwf hupd
  constructor
  · simp only [Codebase.counts]
    rw [hif, h0]
    dsimp only
    rw [if_neg (by simp)]
    rw [hdir]
    simp
  · intro hch
    have hcs : (root.children_rids.filterMap (liveAt cb)) ≠ [] := by
      cases hc : root.children_rids with
      | nil => exact absurd hc hch
      | cons c rest =>
          obtain ⟨s, hs, -, -⟩ :=
            wf_child_live hwf h0 (hc ▸ List.mem_cons_self c rest)
          exact List.ne_nil_of_mem
            (List.mem_filterMap.mpr ⟨c, hc ▸ List.mem_cons_self c rest, hs⟩)
    simp only [Codebase.counts]
    rw [hif, h0]
    dsimp only
    rw [if_pos ⟨trivial, hdir⟩]
    rw [if_neg (by simpa using hcs)]
    rw [foldl_triple_sum]
    simp

/-- `root/a/b` with all aggregates current: file `b` has size 7. -/
def exR2c : Resource := ⟨"b", 2, some 1, true, [], 7, 0, 0⟩

def exR1c : Resource := ⟨"a", 1, some 0, false, [2], 7, 1, 0⟩

def exR0c : Resource := ⟨"root", 0, none, false, [1], 7, 1, 1⟩

def exCb3 : Codebase := ⟨[some exR0c, some exR1c, some exR2c], false⟩

/-- **C3** counterexample: on a well-formed codebase with current
aggregates whose root triple is `(1, 1, 7)`, `counts(skip_root=False)`
returns `(1, 2, 7)` — the root's own aggregate triple with the root itself
added to `dirs_count` — not the root's triple as the claim states. -/
theorem counts_includes_root_counterexample :
    WF exCb3 ∧ upToDate exCb3 ∧
    (liveAt exCb3 0).map (fun r => (r.files_count, r.dirs_count, r.size))
      = some (1, 1, 7) ∧
    exCb3.counts true false = .ok (1, 2, 7) ∧
    exCb3.counts true false ≠ .ok (1, 1, 7) :=
  ⟨by decide, by decide, by decide, by decide, by decide⟩

theorem counts_spec_witness :
    (WF exCb3 ∧ upToDate exCb3 ∧ liveAt exCb3 0 = some exR0c ∧
      exCb3.is_file = false ∧ exR0c.children_rids ≠ []) ∧
    exCb3.counts true false
      = .ok (exR0c.files_count, exR0c.dirs_count + 1, exR0c.size) ∧
    exCb3.counts true true
      = .ok
        (((exR0c.children_rids.filterMap (liveAt exCb3)).map
            (fun c => c.files_count)).sum,
         ((exR0c.children_rids.filterMap (liveAt exCb3)).map
            (fun c => c.dirs_count)).sum,
         ((exR0c.children_rids.filterMap (liveAt exCb3)).map
            (fun c => c.size)).sum) :=
  ⟨⟨by decide, by decide, by decide, by decide, by decide⟩,
    (counts_spec exCb3 exR0c true (by decide) (by decide) (by decide)
      (by decide)).1,
    (counts_spec exCb3 exR0c true (by decide) (by decide) (by decide)
      (by decide)).2 (by decide)⟩

theorem get_resource_indexing_witness :
    ((exCb.resources.length : Int) ≤ 5 ∧ exCb.get_resource 5 = none) ∧
    ((-1 : Int) < 0 ∧ (-1 : Int).natAbs ≤ exCb.resources.length ∧
      exCb.get_resource (-1) =
        (exCb.resources[((exCb.resources.length : Int) + (-1)).toNat]?).join) :=
  ⟨⟨by decide, (get_resource_indexing exCb 5).1 (by decide)⟩,
    ⟨by decide, by decide,
      (get_resource_indexing exCb (-1)).2 (by decide) (by decide)⟩⟩

/-! ## Registry claims -/

/-- **C1** counterexample: register two distinct codebases (handles 1 and
2), unregister handle 2, then register a third distinct codebase: the
register calls hand out `[1, 2, 2]` — handle 2 is assigned twice within one
process lifetime, to two different trees, refuting the never-reused part of
the claim. -/
theorem registry_reuse_counterexample :
    (Registry.runOps
        [.register 10, .register 20, .unregister 2, .register 30]).2
      = [1, 2, 2] ∧
    ¬ ([1, 2, 2] : List Nat).Nodup :=
  ⟨by decide, by decide⟩

/-- **C1** (amended): for a codebase object not currently registered,
`add_codebase` assigns `max(existing) + 1` (`1` when the registry is
empty); the assigned handle differs from every currently registered handle,
and the pair is appended to the registry. (Handles are not unique across a
whole process lifetime: once the maximal handle is unregistered it can be
handed out again, see the counterexample.) -/
theorem registry_handle_assignment (s : Registry.RegState) (codebase : Nat)
    (hfresh : ∀ p ∈ s, p.2 ≠ codebase) :
    (Registry.add_codebase s codebase).1
      = (if s.isEmpty then 1 else Registry.maxKey s + 1) ∧
    (∀ p ∈ s, p.1 ≠ (Registry.add_codebase s codebase).1) ∧
    (Registry.add_codebase s codebase).2
      = s ++ [((Registry.add_codebase s codebase).1, codebase)] := by
  have hfind : s.find? (fun p => p.2 = codebase) = none := by
    rw [List.find?_eq_none]
    intro p hp
    simp [hfresh p hp]
  unfold Registry.add_codebase
  rw [hfind]
  dsimp only
  refine ⟨rfl, ?_, rfl⟩
  intro p hp
  by_cases he : s.isEmpty
  · rw [List.isEmpty_iff] at he
    subst he
    cases hp
  · rw [if_neg he]
    have := Registry.mem_le_maxKey s p hp
    omega

theorem registry_handle_assignment_witness :
    (∀ p ∈ ([(1, 10)] : Registry.RegState), p.2 ≠ 20) ∧
    ((Registry.add_codebase [(1, 10)] 20).1
        = (if ([(1, 10)] : Registry.RegState).isEmpty then 1
           else Registry.maxKey [(1, 10)] + 1) ∧
      (∀ p ∈ ([(1, 10)] : Registry.RegState),
        p.1 ≠ (Registry.add_codebase [(1, 10)] 20).1) ∧
      (Registry.add_codebase [(1, 10)] 20).2
        = [(1, 10)] ++ [((Registry.add_codebase [(1, 10)] 20).1, 20)]) :=
  ⟨by decide, registry_handle_assignment [(1, 10)] 20 (by decide)⟩

/-! ## Cache round-trip claim -/

/-- **C5**: `put(p, merge=False)` followed by `get` returns a payload equal
to `p`; after storing `p1`, `put(p2, merge=True)` followed by `get` returns
the key-wise union in which `p2` wins on every overlapping key — in both
the in-memory and the on-disk cache mode. -/
theorem put_get_roundtrip (st p1 p2 p : Scans.Payload)
    (store : Option Scans.Payload) (k : String)
    (hp : p ≠ []) (hpnd : (Scans.keys p).Nodup)
    (hp2 : p2 ≠ []) (hp2nd : (Scans.keys p2).Nodup) :
    Scans.get_scans_mem (Scans.put_scans_mem st p false) = p ∧
    Scans.get_scans_cached (Scans.put_scans_cached store p false) = p ∧
    Scans.lkp k (Scans.get_scans_mem (Scans.put_scans_mem p1 p2 true))
      = (match Scans.lkp k p2 with
         | some w => some w
         | none => Scans.lkp k p1) ∧
    Scans.lkp k (Scans.get_scans_cached
        (Scans.put_scans_cached (some p1) p2 true))
      = (match Scans.lkp k p2 with
         | some w => some w
         | none => Scans.lkp k p1) := by
  have hpe : ¬ (p.isEmpty = true) := by simpa [List.isEmpty_iff] using hp
  have hp2e : ¬ (p2.isEmpty = true) := by simpa [List.isEmpty_iff] using hp2
  refine ⟨?_, ?_, ?_, ?_⟩
  · show Scans.put_scans_mem st p false = p
    unfold Scans.put_scans_mem
    rw [if_neg hpe, if_neg Bool.false_ne_true]
    exact Scans.odUpdate_nil p hpnd
  · show Scans.get_scans_cached (Scans.put_scans_cached store p false) = p
    unfold Scans.put_scans_cached
    rw [if_neg hpe]
    rfl
  · show Scans.lkp k (Scans.put_scans_mem p1 p2 true) = _
    unfold Scans.put_scans_mem
    rw [if_neg hp2e, if_pos rfl]
    exact Scans.lkp_odUpdate p2 p1 k hp2nd
  · show Scans.lkp k (Scans.get_scans_cached
        (Scans.put_scans_cached (some p1) p2 true)) = _
    unfold Scans.put_scans_cached
    rw [if_neg hp2e, if_pos rfl]
    exact Scans.lkp_odUpdate p2 p1 k hp2nd

theorem put_get_roundtrip_witness :
    (([("licenses", "X")] : Scans.Payload) ≠ [] ∧
      (Scans.keys [("licenses", "X")]).Nodup ∧
      ([("k", "v2"), ("n", "w")] : Scans.Payload) ≠ [] ∧
      (Scans.keys [("k", "v2"), ("n", "w")]).Nodup) ∧
    (Scans.get_scans_mem
        (Scans.put_scans_mem [("a", "1")] [("licenses", "X")] false)
        = [("licenses", "X")] ∧
      Scans.get_scans_cached
          (Scans.put_scans_cached (some [("a", "1")]) [("licenses", "X")] false)
        = [("licenses", "X")] ∧
      Scans.lkp "k" (Scans.get_scans_mem
          (Scans.put_scans_mem [("c", "C"), ("k", "v1")]
            [("k", "v2"), ("n", "w")] true))
        = (match Scans.lkp "k" [("k", "v2"), ("n", "w")] with
           | some w => some w
           | none => Scans.lkp "k" [("c", "C"), ("k", "v1")]) ∧
      Scans.lkp "k" (Scans.get_scans_cached
          (Scans.put_scans_cached (some [("c", "C"), ("k", "v1")])
            [("k", "v2"), ("n", "w")] true))
        = (match Scans.lkp "k" [("k", "v2"), ("n", "w")] with
           | some w => some w
           | none => Scans.lkp "k" [("c", "C"), ("k", "v1")])) :=
  ⟨⟨by decide, by decide, by decide, by decide⟩,
    put_get_roundtrip [("a", "1")] [("c", "C"), ("k", "v1")]
      [("k", "v2"), ("n", "w")] [("licenses", "X")] (some [("a", "1")]) "k"
      (by decide) (by decide) (by decide) (by decide)⟩

/-! ## `add_child` and `_get_next_rid` -/

/-- A slot in the Python `resources` list as `add_child` leaves it: Python
lists are heterogeneous, and `Resource.add_child` appends the integer rid
rather than the child object. -/
inductive PySlot where
  | pyNone
  | pyRes (r : Resource)
  | pyInt (n : Nat)
deriving DecidableEq, Repr

/-- `Codebase._get_next_rid()`:
`len([r for r in self.resources if r is not None])` — the number of slots
that are not `None` (with tombstones present this is not an unused
handle). -/
def Codebase._get_next_rid (resources : List PySlot) : Nat :=
  (resources.filter (fun s => s ≠ PySlot.pyNone)).length

/-- `Resource._add_child(name, rid, is_file)`: create the child and append
its rid to this resource's `children_rids`. Returns the child and the
updated parent. -/
def Resource._add_child (parent : Resource) (name : String) (rid : Nat)
    (is_file : Bool) : Resource × Resource :=
  (⟨name, rid, some parent.rid, is_file, [], 0, 0, 0⟩,
   { parent with children_rids := parent.children_rids ++ [rid] })

/-- `Resource.add_child(name, is_file)`: allocate `rid = _get_next_rid()`,
create the child, then `self.codebase.resources.append(rid)` — the source
appends the integer rid, not the child object — and return the child.
Returns (child, updated parent, updated resources list). -/
def Resource.add_child (resources : List PySlot) (parent : Resource)
    (name : String) (is_file : Bool) : Resource × Resource × List PySlot :=
  let rid := Codebase._get_next_rid resources
  let c := Resource._add_child parent name rid is_file
  (c.1, c.2, resources ++ [PySlot.pyInt rid])

def exPyRoot : Resource := ⟨"root", 0, none, false, [], 0, 0, 0⟩

def exPyResources : List PySlot := [PySlot.pyRes exPyRoot]

/-- **C2**: on a root-only codebase, `add_child(root, "x", is_file=True)`
allocates rid 1, links 1 into the parent's `children_rids` and returns the
child — but the node array's slot 1 ends up holding the integer 1
(`resources.append(rid)`), not the new node, contradicting the claim and
the method's own docstring; moreover with a tombstone present
`_get_next_rid` counts live slots and returns the handle of an existing
live node instead of an unused handle. -/
theorem add_child_appends_int_not_node :
    (Resource.add_child exPyResources exPyRoot "x" true).2.2
      = [PySlot.pyRes exPyRoot, PySlot.pyInt 1] ∧
    (Resource.add_child exPyResources exPyRoot "x" true).1
      = ⟨"x", 1, some 0, true, [], 0, 0, 0⟩ ∧
    (Resource.add_child exPyResources exPyRoot "x" true).2.1.children_rids
      = [1] ∧
    ((Resource.add_child exPyResources exPyRoot "x" true).2.2)[1]?
      ≠ some (PySlot.pyRes ⟨"x", 1, some 0, true, [], 0, 0, 0⟩) ∧
    Codebase._get_next_rid [PySlot.pyRes exPyRoot, PySlot.pyNone,
        PySlot.pyRes ⟨"b", 2, some 0, true, [], 0, 0, 0⟩] = 2 :=
  ⟨by decide, by decide, by decide, by decide, by decide⟩

/-! ## Merkle tree plugin: the post-order hashing pass -/

namespace Merkle

/-- A `File` object of `plugin_merkle_tree.py`, reduced to the record fields
the hashing pass reads: its `path` (object equality) and its `sha1`. -/
structure FileRec where
  path : String
  sha1 : String
deriving DecidableEq, Repr

/-- A `Dir` object: its path, its child `Dir` list and its child `File`
list. -/
inductive DirNode : Type where
  | mk : String → List DirNode → List FileRec → DirNode

instance decNilDirNode (l : List DirNode) : Decidable (l = []) :=
  match l with
  | [] => isTrue rfl
  | _ :: _ => isFalse (fun h => by cases h)

def DirNode.path : DirNode → String
  | .mk p _ _ => p

def DirNode.dirs : DirNode → List DirNode
  | .mk _ ds _ => ds

def DirNode.files : DirNode → List FileRec
  | .mk _ _ fs => fs

/-- The observable state of a `hashlib.sha1()` object: successive `update`
calls concatenate their input, so the state is the concatenation of all
data fed so far (sha1 itself is treated as injective on that data). -/
abbrev Digest := String

/-- `sha1()` -/
def digestInit : Digest := ""

/-- `h.update(s)` -/
def digestUpdate (d : Digest) (s : String) : Digest := d ++ s

/-- `h.hexdigest()`: an injective stand-in for the hex digest of the data
fed so far. -/
def hexdigest (d : Digest) : String := d

/-- Code-point lexicographic comparison of character lists: the semantics
of Python `<=` on `str`, phrased so that it evaluates by kernel
reduction. -/
def charListLeb : List Char → List Char → Bool
  | [], _ => true
  | _ :: _, [] => false
  | a :: as, b :: bs =>
      if a.toNat < b.toNat then true
      else if b.toNat < a.toNat then false
      else charListLeb as bs

/-- Lexicographic `≤` on strings — the order Python `sorted` uses on the
string keys. -/
def strLe (a b : String) : Prop := charListLeb a.data b.data = true

instance (a b : String) : Decidable (strLe a b) := by
  unfold strLe
  infer_instance

/-- The sort key of `sorted(files, key=lambda x: x.data['sha1'])`. -/
def fileLe (a b : FileRec) : Prop := strLe a.sha1 b.sha1

instance (a b : FileRec) : Decidable (fileLe a b) := by
  unfold fileLe
  infer_instance

/-- The sort key of `sorted(hash_stack, key=lambda x: x.hexdigest())`. -/
def digestLe (a b : Digest) : Prop := strLe (hexdigest a) (hexdigest b)

instance (a b : Digest) : Decidable (digestLe a b) := by
  unfold digestLe
  infer_instance

theorem charListLeb_total : ∀ a b, charListLeb a b = true ∨ charListLeb b a = true := by
  intro a
  induction a with
  | nil =>
      intro b
      left
      cases b <;> rfl
  | cons x as ih =>
      intro b
      cases b with
      | nil => right; rfl
      | cons y bs =>
          simp only [charListLeb]
          by_cases h1 : x.toNat < y.toNat
          · left
            rw [if_pos h1]
          · by_cases h2 : y.toNat < x.toNat
            · right
              rw [if_pos h2]
            · rw [if_neg h1, if_neg h2, if_neg h2, if_neg h1]
              exact ih bs

theorem charListLeb_trans : ∀ a b c, charListLeb a b = true →
    charListLeb b c = true → charListLeb a c = true := by
  intro a
  induction a with
  | nil =>
      intro b c _ _
      cases c <;> rfl
  | cons x as ih =>
      intro b c hab hbc
      cases b with
      | nil => simp [charListLeb] at hab
      | cons y bs =>
          cases c with
          | nil => simp [charListLeb] at hbc
          | cons z cs =>
              simp only [charListLeb] at hab hbc ⊢
              by_cases h1 : x.toNat < y.toNat
              · by_cases h2 : y.toNat < z.toNat
                · rw [if_pos (by omega : x.toNat < z.toNat)]
                · rw [if_neg h2] at hbc
                  by_cases h3 : z.toNat < y.toNat
                  · rw [if_pos h3] at hbc
                    exact absurd hbc (by simp)
                  · rw [if_pos (by omega : x.toNat < z.toNat)]
              · rw [if_neg h1] at hab
                by_cases h4 : y.toNat < x.toNat
                · rw [if_pos h4] at hab
                  exact absurd hab (by simp)
                · rw [if_neg h4] at hab
                  by_cases h2 : y.toNat < z.toNat
                  · rw [if_pos (by omega : x.toNat < z.toNat)]
                  · rw [if_neg h2] at hbc
                    by_cases h5 : z.toNat < y.toNat
                    · rw [if_pos h5] at hbc
                      exact absurd hbc (by simp)
                    · rw [if_neg h5] at hbc
                      rw [if_neg (by omega : ¬ x.toNat < z.toNat),
                        if_neg (by omega : ¬ z.toNat < x.toNat)]
                      exact ih bs cs hab hbc

theorem charListLeb_antisymm : ∀ a b, charListLeb a b = true →
    charListLeb b a = true → a = b := by
  intro a
  induction a with
  | nil =>
      intro b _ hba
      cases b with
      | nil => rfl
      | cons y bs => simp [charListLeb] at hba
  | cons x as ih =>
      intro b hab hba
      cases b with
      | nil => simp [charListLeb] at hab
      | cons y bs =>
          simp only [charListLeb] at hab hba
          by_cases h1 : x.toNat < y.toNat
          · rw [if_neg (by omega : ¬ y.toNat < x.toNat), if_pos h1] at hba
            exact absurd hba (by simp)
          · by_cases h2 : y.toNat < x.toNat
            · rw [if_neg h1, if_pos h2] at hab
              exact absurd hab (by simp)
            · rw [if_neg h1, if_neg h2] at hab
              rw [if_neg h2, if_neg h1] at hba
              have e1 : x.toNat = x.val.toNat := rfl
              have e2 : y.toNat = y.val.toNat := rfl
              have hchar : x = y := Char.ext (UInt32.toNat.inj (by omega))
              rw [hchar, ih bs hab hba]

instance : IsAntisymm String strLe :=
  ⟨fun _ _ hab hba => String.ext (charListLeb_antisymm _ _ hab hba)⟩

instance : IsTotal FileRec fileLe :=
  ⟨fun a b => charListLeb_total a.sha1.data b.sha1.data⟩

instance : IsTrans FileRec fileLe :=
  ⟨fun _ _ _ hab hbc => charListLeb_trans _ _ _ hab hbc⟩

instance : IsTotal Digest digestLe :=
  ⟨fun a b => charListLeb_total (hexdigest a).data (hexdigest b).data⟩

instance : IsTrans Digest digestLe :=
  ⟨fun _ _ _ hab hbc => charListLeb_trans _ _ _ hab hbc⟩

mutual

/-- `Dir.postorder_walk()`: yield `(self, self.dirs, self.files)` for every
directory, children before parents (`for d in self.dirs: yield from
d.postorder_walk()`, then the node's own frame). Frames carry the
directory's path in place of the object itself. -/
def postorder_walk : DirNode → List (String × List DirNode × List FileRec)
  | .mk p ds fs => postorder_walk_dirs ds ++ [(p, ds, fs)]

/-- The `for d in self.dirs` part of `postorder_walk`. -/
def postorder_walk_dirs : List DirNode → List (String × List DirNode × List FileRec)
  | [] => []
  | d :: ds => postorder_walk d ++ postorder_walk_dirs ds

end

/-- `sorted(files, key=lambda x: x.data['sha1'])`: Python's stable sort by
key, modelled by (stable) insertion sort. -/
def sortFilesBySha (files : List FileRec) : List FileRec :=
  List.insertionSort fileLe files

/-- `sorted(hash_stack, key=lambda x: x.hexdigest())`. -/
def sortStack (stack : List Digest) : List Digest :=
  List.insertionSort digestLe stack

/-- The file fold of one loop iteration: seed `sha1()` and fold in each
child file's content hash, in ascending order of the hash value. -/
def fileDigest (files : List FileRec) : Digest :=
  (sortFilesBySha files).foldl (fun d f => digestUpdate d f.sha1) digestInit

/-- The body of the `build_merkle_tree` loop for one directory: fold the
files (sorted by hash); if the directory has child directories, fold every
pending digest in ascending order of digest value and clear the pending
list, otherwise push the directory's just-computed digest onto the pending
list. Returns the directory's final digest and the new pending list. -/
def hashStep (stack : List Digest) (dirs : List DirNode)
    (files : List FileRec) : Digest × List Digest :=
  let dh := fileDigest files
  if dirs ≠ [] then
    ((sortStack stack).foldl (fun d h => digestUpdate d (hexdigest h)) dh, [])
  else
    (dh, stack ++ [dh])

/-- The full hashing pass of `build_merkle_tree` over an already-built
tree: thread the pending list (`hash_stack`) through the post-order frames,
recording `(path, hexdigest)` for every directory. -/
def hashPass (root : DirNode) : List (String × String) × List Digest :=
  (postorder_walk root).foldl
    (fun acc fr =>
      let r := hashStep acc.2 fr.2.1 fr.2.2
      (acc.1 ++ [(fr.1, hexdigest r.1)], r.2))
    ([], [])

/-- The pending list just before the `i`-th frame of the pass is
processed. -/
def stackBefore (root : DirNode) (i : Nat) : List Digest :=
  ((postorder_walk root).take i).foldl
    (fun st fr => (hashStep st fr.2.1 fr.2.2).2) []

theorem hashPass_stack (l : List (String × List DirNode × List FileRec)) :
    ∀ (outs : List (String × String)) (st : List Digest),
      (l.foldl
          (fun acc fr =>
            let r := hashStep acc.2 fr.2.1 fr.2.2
            (acc.1 ++ [(fr.1, hexdigest r.1)], r.2))
          (outs, st)).2
        = l.foldl (fun st fr => (hashStep st fr.2.1 fr.2.2).2) st := by
  induction l with
  | nil =>
      intro outs st
      rfl
  | cons fr l ih =>
      intro outs st
      exact ih _ _

/-- `stackBefore` is exactly the `hash_stack` the pass carries when it
reaches the `i`-th frame. -/
theorem stackBefore_eq_pass_prefix (root : DirNode) (i : Nat) :
    stackBefore root i
      = (((postorder_walk root).take i).foldl
          (fun acc fr =>
            let r := hashStep acc.2 fr.2.1 fr.2.2
            (acc.1 ++ [(fr.1, hexdigest r.1)], r.2))
          ([], [])).2 :=
  (hashPass_stack _ [] []).symm

/-- Case analysis of one loop iteration, shared by the pending-list and
order-independence claims. -/
theorem hashStep_cases (stack : List Digest) (dirs : List DirNode)
    (files : List FileRec) :
    (dirs ≠ [] →
      ∃ l : List Digest, l.Perm stack ∧
        l.Sorted digestLe ∧
        (hashStep stack dirs files).1
          = l.foldl (fun d h => digestUpdate d (hexdigest h))
              (fileDigest files) ∧
        (hashStep stack dirs files).2 = []) ∧
    (dirs = [] →
      (hashStep stack dirs files).1 = fileDigest files ∧
      (hashStep stack dirs files).2 = stack ++ [fileDigest files]) := by
  constructor
  · intro hne
    refine ⟨sortStack stack, ?_, ?_, ?_, ?_⟩
    · exact List.perm_insertionSort _ stack
    · exact List.sorted_insertionSort _ stack
    · simp only [hashStep]
      rw [if_pos hne]
    · simp only [hashStep]
      rw [if_pos hne]
  · intro heq
    simp only [hashStep]
    rw [if_neg (by simp [heq])]
    exact ⟨rfl, rfl⟩

end Merkle

/-- **C7**: during the post-order hashing pass, every directory with at
least one child directory folds the digests currently pending into its
running digest in ascending order of digest value and leaves the pending
list empty (it does not push its own digest); every directory without
child directories folds nothing extra and pushes its just-computed digest
onto the pending list. -/
theorem merkle_pending_fold (root : Merkle.DirNode) (i : Nat)
    (h : i < (Merkle.postorder_walk root).length) :
    (((Merkle.postorder_walk root).get ⟨i, h⟩).2.1 ≠ [] →
      ∃ l : List Merkle.Digest,
        l.Perm (Merkle.stackBefore root i) ∧
        l.Sorted Merkle.digestLe ∧
        (Merkle.hashStep (Merkle.stackBefore root i)
            ((Merkle.postorder_walk root).get ⟨i, h⟩).2.1
            ((Merkle.postorder_walk root).get ⟨i, h⟩).2.2).1
          = l.foldl (fun d x => Merkle.digestUpdate d (Merkle.hexdigest x))
              (Merkle.fileDigest
                ((Merkle.postorder_walk root).get ⟨i, h⟩).2.2) ∧
        (Merkle.hashStep (Merkle.stackBefore root i)
            ((Merkle.postorder_walk root).get ⟨i, h⟩).2.1
            ((Merkle.postorder_walk root).get ⟨i, h⟩).2.2).2 = []) ∧
    (((Merkle.postorder_walk root).get ⟨i, h⟩).2.1 = [] →
      (Merkle.hashStep (Merkle.stackBefore root i)
          ((Merkle.postorder_walk root).get ⟨i, h⟩).2.1
          ((Merkle.postorder_walk root).get ⟨i, h⟩).2.2).1
        = Merkle.fileDigest ((Merkle.postorder_walk root).get ⟨i, h⟩).2.2 ∧
      (Merkle.hashStep (Merkle.stackBefore root i)
          ((Merkle.postorder_walk root).get ⟨i, h⟩).2.1
          ((Merkle.postorder_walk root).get ⟨i, h⟩).2.2).2
        = Merkle.stackBefore root i
            ++ [Merkle.fileDigest
                ((Merkle.postorder_walk root).get ⟨i, h⟩).2.2]) :=
  Merkle.hashStep_cases (Merkle.stackBefore root i)
    ((Merkle.postorder_walk root).get ⟨i, h⟩).2.1
    ((Merkle.postorder_walk root).get ⟨i, h⟩).2.2

/-- `r/` containing directory `d/` (which holds file `f`, hash `aa`) — the
second frame of the pass is a directory with a child directory. -/
def exTree : Merkle.DirNode :=
  .mk "r" [.mk "r/d" [] [⟨"r/d/f", "aa"⟩]] []

theorem merkle_pending_fold_witness :
    ((1 : Nat) < (Merkle.postorder_walk exTree).length ∧
      ((Merkle.postorder_walk exTree).get
        ⟨1, by decide⟩).2.1 ≠ []) ∧
    (∃ l : List Merkle.Digest,
      l.Perm (Merkle.stackBefore exTree 1) ∧
      l.Sorted Merkle.digestLe ∧
      (Merkle.hashStep (Merkle.stackBefore exTree 1)
          ((Merkle.postorder_walk exTree).get ⟨1, by decide⟩).2.1
          ((Merkle.postorder_walk exTree).get ⟨1, by decide⟩).2.2).1
        = l.foldl (fun d x => Merkle.digestUpdate d (Merkle.hexdigest x))
            (Merkle.fileDigest
              ((Merkle.postorder_walk exTree).get ⟨1, by decide⟩).2.2) ∧
      (Merkle.hashStep (Merkle.stackBefore exTree 1)
          ((Merkle.postorder_walk exTree).get ⟨1, by decide⟩).2.1
          ((Merkle.postorder_walk exTree).get ⟨1, by decide⟩).2.2).2 = []) :=
  ⟨⟨by decide, by decide⟩,
    (merkle_pending_fold exTree 1 (by decide)).1 (by decide)⟩

/-- **C8** (amended): for a directory with a fixed multiset of direct child
file records, the computed digest (and the resulting pending list) is the
same for every ordering of those records, because file hashes are folded in
ascending order of hash value; it is the attachment of files to directories
by `build_tree` that can differ between two orderings of the input stream
(see the stream-level counterexample). -/
theorem dir_digest_order_independent (stack : List Merkle.Digest)
    (dirs : List Merkle.DirNode) (files1 files2 : List Merkle.FileRec)
    (hperm : files1.Perm files2) :
    Merkle.hashStep stack dirs files1 = Merkle.hashStep stack dirs files2 := by
  have hs1 : ((Merkle.sortFilesBySha files1).map Merkle.FileRec.sha1).Sorted
      Merkle.strLe :=
    List.pairwise_map.mpr (List.sorted_insertionSort Merkle.fileLe files1)
  have hs2 : ((Merkle.sortFilesBySha files2).map Merkle.FileRec.sha1).Sorted
      Merkle.strLe :=
    List.pairwise_map.mpr (List.sorted_insertionSort Merkle.fileLe files2)
  have hper : List.Perm ((Merkle.sortFilesBySha files1).map Merkle.FileRec.sha1)
      ((Merkle.sortFilesBySha files2).map Merkle.FileRec.sha1) :=
    ((List.perm_insertionSort _ files1).map _).trans
      ((hperm.map _).trans
        (((List.perm_insertionSort _ files2).map _).symm))
  have hkey : (Merkle.sortFilesBySha files1).map Merkle.FileRec.sha1
      = (Merkle.sortFilesBySha files2).map Merkle.FileRec.sha1 :=
    List.eq_of_perm_of_sorted hper hs1 hs2
  have hfd : Merkle.fileDigest files1 = Merkle.fileDigest files2 := by
    unfold Merkle.fileDigest
    rw [← List.foldl_map Merkle.FileRec.sha1
        (fun d s => Merkle.digestUpdate d s),
      ← List.foldl_map Merkle.FileRec.sha1
        (fun d s => Merkle.digestUpdate d s),
      hkey]
  unfold Merkle.hashStep
  rw [hfd]

theorem dir_digest_order_independent_witness :
    ([⟨"p/x", "22"⟩, ⟨"p/y", "11"⟩] : List Merkle.FileRec).Perm
        [⟨"p/y", "11"⟩, ⟨"p/x", "22"⟩] ∧
    Merkle.hashStep [] [] [⟨"p/x", "22"⟩, ⟨"p/y", "11"⟩]
      = Merkle.hashStep [] [] [⟨"p/y", "11"⟩, ⟨"p/x", "22"⟩] :=
  ⟨by decide,
    dir_digest_order_independent [] [] _ _ (by decide)⟩

/-! ## Merkle tree plugin: `build_tree` from a flat record stream -/

namespace Build

/-- An input record of the merkle-tree builder: at least a POSIX-style
`path`, a `type` flag and a content hash. -/
structure ScanRec where
  path : String
  type : String
  sha1 : String
deriving DecidableEq, Repr

/-- Split a character list on `'/'` (the semantics of `split('/')` on a
POSIX path). -/
def splitSlash : List Char → List (List Char)
  | [] => [[]]
  | c :: rest =>
      match splitSlash rest with
      | [] => [[]]
      | s :: ss => if c = '/' then [] :: s :: ss else (c :: s) :: ss

/-- Join segments with `'/'`. -/
def joinSlash : List (List Char) → List Char
  | [] => []
  | [s] => s
  | s :: ss => s ++ '/' :: joinSlash ss

/-- Modelled from the spec: `parent_directory(path).strip('/')`, where
`parent_directory` comes from `commoncode.fileutils` (not under `src/`):
records carry POSIX-style paths, and the stripped parent is the path with
its last `/`-separated segment removed (empty for a single segment). -/
def parentStrip (p : String) : String :=
  String.mk (joinSlash ((splitSlash p.data).dropLast))

/-- `create_empty_dir(path)`: an `_empty_file_infos()` record (from
`scancode.api`, not under `src/`; modelled from the spec as an empty
record) with `path` and `type` filled in. -/
def emptyDirRec (path : String) : ScanRec := ⟨path, "directory", ""⟩

/-- A `Dir` object: its record `data`, its child `Dir` references and its
child `File` records. Python object references are modelled by store
indices into `BState.nodes`. -/
structure DirObj where
  data : ScanRec
  dirs : List Nat
  files : List ScanRec
deriving DecidableEq, Repr

/-- The state of one `build_tree` run: the store of `Dir` objects (id =
index), the `dirs` path→object mapping, and the root's id. -/
structure BState where
  nodes : List DirObj
  dirsMap : List (String × Nat)
  root : Nat
deriving DecidableEq, Repr

def getNode (st : BState) (i : Nat) : DirObj :=
  (st.nodes[i]?).getD ⟨⟨"", "", ""⟩, [], []⟩

def setNode (st : BState) (i : Nat) (n : DirObj) : BState :=
  { st with nodes := st.nodes.set i n }

/-- `dirs.get(path)` -/
def mapGet (st : BState) (p : String) : Option Nat :=
  (st.dirsMap.find? (fun q => q.1 = p)).map Prod.snd

/-- `dirs[path] = node` (only ever called for a path not yet present). -/
def mapSet (st : BState) (p : String) (i : Nat) : BState :=
  { st with dirsMap := st.dirsMap ++ [(p, i)] }

inductive BuildErr where
  | emptyInput
  | loopLimit
deriving DecidableEq, Repr

inductive ClimbRes where
  | exit (st : BState) (parentVar : Nat)
  | cont (st : BState) (current parentVar : Nat)
deriving DecidableEq, Repr

/-- One iteration of the `while current != root` ancestor-attachment loop
(`!=` is `Dir.__ne__`, i.e. path inequality). `parentVar` tracks the local
variable `parent`, which the missing-grandparent branch rebinds. -/
def climbStep (st : BState) (current parentVar : Nat) : ClimbRes :=
  if (getNode st current).data.path = (getNode st st.root).data.path then
    .exit st parentVar
  else
    match mapGet st (parentStrip (getNode st current).data.path) with
    | some cp =>
        match (getNode st cp).dirs.find?
            (fun d =>
              (getNode st d).data.path = (getNode st current).data.path) with
        | some d =>
            .cont (setNode st d
              { getNode st d with
                dirs := (getNode st current).dirs
                files := (getNode st current).files }) cp parentVar
        | none =>
            .cont (setNode st cp
              { getNode st cp with dirs := (getNode st cp).dirs ++ [current] })
              cp parentVar
    | none =>
        .cont (mapSet
            { st with
              nodes := st.nodes
                ++ [⟨emptyDirRec (parentStrip (getNode st current).data.path),
                    [], []⟩] }
            (parentStrip (getNode st current).data.path) st.nodes.length)
          st.nodes.length st.nodes.length

/-- The `while current != root` loop, with fuel: the source loop does not
terminate on every input (see the divergence claim), so fuel exhaustion is
an explicit outcome. -/
def climb : Nat → BState → Nat → Nat → Except BuildErr (BState × Nat)
  | 0, _, _, _ => .error .loopLimit
  | fuel+1, st, current, parentVar =>
      match climbStep st current parentVar with
      | .exit st pv => .ok (st, pv)
      | .cont st cur pv => climb fuel st cur pv

/-- Attach one record under its resolved parent: a directory record either
replaces the `data` of an equal directory already listed by the parent or
is appended to the parent's `dirs`; a file record is appended to the
parent's `files`. -/
def attachRecord (st : BState) (parentVar : Nat) (r : ScanRec) : BState :=
  if r.type = "directory" then
    match (getNode st parentVar).dirs.find?
        (fun d => (getNode st d).data.path = r.path) with
    | some d => setNode st d { getNode st d with data := r }
    | none =>
        let st1 : BState := { st with nodes := st.nodes ++ [⟨r, [], []⟩] }
        setNode st1 parentVar
          { getNode st1 parentVar with
            dirs := (getNode st1 parentVar).dirs ++ [st.nodes.length] }
  else
    setNode st parentVar
      { getNode st parentVar with
        files := (getNode st parentVar).files ++ [r] }

/-- One iteration of the `for scanned_file in results` loop: resolve the
parent from the `dirs` mapping, or synthesize a placeholder and climb the
missing ancestor chain, then attach the record. -/
def processRecord (fuel : Nat) (st : BState) (r : ScanRec) :
    Except BuildErr BState :=
  match mapGet st (parentStrip r.path) with
  | some p => .ok (attachRecord st p r)
  | none =>
      let st2 := mapSet
        { st with
          nodes := st.nodes ++ [⟨emptyDirRec (parentStrip r.path), [], []⟩] }
        (parentStrip r.path) st.nodes.length
      match climb fuel st2 st.nodes.length st.nodes.length with
      | .ok y => .ok (attachRecord y.1 y.2 r)
      | .error e => .error e

/-- `build_tree(results)`: `results[0]` raises `IndexError` on an empty
collection (no tree is built); otherwise the first record's topmost path
segment seeds the root and every record is processed in order. -/
def build_tree (fuel : Nat) (results : List ScanRec) :
    Except BuildErr BState :=
  match results with
  | [] => .error .emptyInput
  | r0 :: _ =>
      let root_path := String.mk ((splitSlash r0.path.data).headD [])
      results.foldlM (fun st r => processRecord fuel st r)
        ⟨[⟨emptyDirRec root_path, [], []⟩], [(root_path, 0)], 0⟩

/-- Read the built store tree back as a `Merkle.DirNode` (fuel-bounded:
the store can contain a cycle, see the divergence claim). -/
def toDirNode (st : BState) : Nat → Nat → Merkle.DirNode
  | 0, i => .mk (getNode st i).data.path [] []
  | fuel+1, i =>
      .mk (getNode st i).data.path
        ((getNode st i).dirs.map (toDirNode st fuel))
        ((getNode st i).files.map (fun r => ⟨r.path, r.sha1⟩))

/-- `build_merkle_tree(active_scans, results)`: build the tree from the
record stream, then run the post-order hashing pass over it; returns the
`(path, hexdigest)` assignments. -/
def build_merkle_tree (fuel : Nat) (results : List ScanRec) :
    Except BuildErr (List (String × String)) :=
  match build_tree fuel results with
  | .ok st => .ok (Merkle.hashPass (toDirNode st fuel st.root)).1
  | .error e => .error e

/-- The digest assigned to the directory at `path`, if any. -/
def findDigest (outs : List (String × String)) (p : String) : Option String :=
  (outs.find? (fun q => q.1 = p)).map Prod.snd

/-- A record whose path is a single segment — e.g. the root directory's own
record, as in the spec's §8 scenario. -/
def singleSegRec : ScanRec := ⟨"a", "directory", "da39"⟩

/-- The builder state just before processing `singleSegRec`. -/
def st0A : BState := ⟨[⟨emptyDirRec "a", [], []⟩], [("a", 0)], 0⟩

/-- The state on entering the ancestor climb for `singleSegRec`: a
placeholder for the empty parent path has been synthesized. -/
def st2A : BState :=
  ⟨[⟨emptyDirRec "a", [], []⟩, ⟨emptyDirRec "", [], []⟩],
   [("a", 0), ("", 1)], 0⟩

/-- The stationary state of the climb: the placeholder for the empty path
has appended itself to its own `dirs` and the loop no longer changes
anything. -/
def st3A : BState :=
  ⟨[⟨emptyDirRec "a", [], []⟩, ⟨emptyDirRec "", [1], []⟩],
   [("a", 0), ("", 1)], 0⟩

end Build

/-- **C9**: on the empty record collection, `build_tree` fails fatally
(`results[0]` raises `IndexError`) without constructing any tree; but a
non-empty collection need not produce a tree at all: on the single record
`{path: "a", type: "directory"}` the ancestor-attachment loop never
terminates (the placeholder synthesized for the empty parent path becomes
its own parent and the climb never reaches the root), for every fuel
bound. -/
theorem build_tree_empty_and_divergence :
    (∀ fuel, Build.build_tree fuel [] = .error .emptyInput) ∧
    (∀ fuel, Build.build_tree fuel [Build.singleSegRec] = .error .loopLimit) := by
  constructor
  · intro fuel
    rfl
  · intro fuel
    have hstuck : ∀ f, Build.climb f Build.st3A 1 1 = .error .loopLimit := by
      intro f
      induction f with
      | zero => rfl
      | succ f ih =>
          have hs : Build.climbStep Build.st3A 1 1
              = Build.ClimbRes.cont Build.st3A 1 1 := by decide
          simp only [Build.climb, hs]
          exact ih
    have hclimb : ∀ f, Build.climb f Build.st2A 1 1 = .error .loopLimit := by
      intro f
      cases f with
      | zero => rfl
      | succ f =>
          have hs : Build.climbStep Build.st2A 1 1
              = Build.ClimbRes.cont Build.st3A 1 1 := by decide
          simp only [Build.climb, hs]
          exact hstuck f
    have hpr : Build.processRecord fuel Build.st0A Build.singleSegRec
        = .error .loopLimit := by
      rw [show Build.processRecord fuel Build.st0A Build.singleSegRec =
          (match Build.climb fuel Build.st2A 1 1 with
           | .ok y => Except.ok (Build.attachRecord y.1 y.2 Build.singleSegRec)
           | .error e => Except.error e) from rfl]
      rw [hclimb fuel]
    rw [show Build.build_tree fuel [Build.singleSegRec]
        = Except.bind (Build.processRecord fuel Build.st0A Build.singleSegRec)
            (fun s =>
              List.foldlM (fun st r => Build.processRecord fuel st r) s [])
        from rfl]
    rw [hpr]
    rfl

/-- **C8** counterexample: the streams `[g, f]` and `[f, g]` are
permutations of the same record multiset, yet the digest computed for
directory `a/b` differs (`"ggff"` vs `"ffgg"`): processing
`a/b/c/f.txt` before any of its ancestors are known makes `build_tree`
rebind the record's parent to the synthesized `a/b` placeholder, so the
file is attached to `a/b` instead of `a/b/c`. -/
theorem merkle_stream_order_counterexample :
    List.Perm
      [(⟨"a/b/g.txt", "file", "gg"⟩ : Build.ScanRec),
       ⟨"a/b/c/f.txt", "file", "ff"⟩]
      [⟨"a/b/c/f.txt", "file", "ff"⟩, ⟨"a/b/g.txt", "file", "gg"⟩] ∧
    (Build.build_merkle_tree 10
        [⟨"a/b/g.txt", "file", "gg"⟩, ⟨"a/b/c/f.txt", "file", "ff"⟩]).map
      (fun outs => Build.findDigest outs "a/b") = .ok (some "ggff") ∧
    (Build.build_merkle_tree 10
        [⟨"a/b/c/f.txt", "file", "ff"⟩, ⟨"a/b/g.txt", "file", "gg"⟩]).map
      (fun outs => Build.findDigest outs "a/b") = .ok (some "ffgg") ∧
    ("ggff" : String) ≠ "ffgg" :=
  ⟨by decide, by decide, by decide, by decide⟩

end ScanCode
